import Mathlib

/-!
Verification of the StockTicker repository (src/StockTicker.ino and
src/ticker/ticker.ino/ticker.ino.ino).  The two sketches share the same
core logic; every definition below is a shallow embedding of the
corresponding function of the source, transcribed statement by statement.

External collaborators (WiFi transport, the Gammon Regexp library, the OLED
draw calls, the FreeRTOS task primitives and the wall clock) are modelled as
inputs: a fetch attempt is an element of FetchOutcome carrying the raw
response data and the results of the two library regex matches, and the
current local time is a Tm record as filled in by localtime.

Strings are modelled as List Char so that the character level loops of the
source can be transcribed and reasoned about directly.
-/

/-- Character list of a string literal, used to transcribe the string
constants of the source. -/
def str (s : String) : List Char := s.data

/-- The NUL character: reading index 0 of an empty C char buffer, and the
out of range result of Arduino String.charAt. -/
def nulChar : Char := Char.ofNat 0

/-- MARKET_OPEN_HR from the source. -/
def MARKET_OPEN_HR : Nat := 9

/-- MARKET_OPEN_MIN from the source. -/
def MARKET_OPEN_MIN : Nat := 30

/-- MARKET_CLOSE_HR from the source. -/
def MARKET_CLOSE_HR : Nat := 16

/-- MARKET_CLOSE_MIN from the source. -/
def MARKET_CLOSE_MIN : Nat := 0

/-- DISP_DATE_CNT from the source. -/
def DISP_DATE_CNT : Nat := 20

/-- ACTIVE_ON_HR from the source (StockTicker.ino). -/
def ACTIVE_ON_HR : Nat := 7

/-- ACTIVE_OFF_HR from the source (StockTicker.ino). -/
def ACTIVE_OFF_HR : Nat := 19

/-- The updatingMsg constant of the source. -/
def updatingMsg : List Char := str "UPDATING.............  "

/-- The spacer constant of the source. -/
def spacer : List Char := str "  "

/-- The stocks array of StockTicker.ino. -/
def stocks : List (List Char) := [str "MSFT", str "AAPL", str "FB", str "GOOG"]

/-- stocksLen of the source: the number of configured symbols. -/
def stocksLen : Nat := stocks.length

/-- Local wall clock time as produced by localtime in the source: the
fields of struct tm that the program reads.  tm_wday is 0 for Sunday up to
6 for Saturday. -/
structure Tm where
  wday : Nat
  hour : Nat
  min : Nat
  sec : Nat

/-- The marketOpen function of the source.  The source builds openTime and
closeTime by copying the current broken down time and replacing hour and
minute (and, for openTime only, second), so both share the current date and
mktime of each differs from now exactly by the difference of the time of
day fields; the comparisons below are the two difftime comparisons of the
source reduced accordingly.  The local variable marketIsOpen is only
assigned inside the weekday guard, so when the guard is false the function
returns an uninitialized bool: that control path is modelled as none. -/
def marketOpen (t : Tm) : Option Bool :=
  let nowS : Int := (t.hour * 3600 + t.min * 60 + t.sec : Nat)
  let openS : Int := (MARKET_OPEN_HR * 3600 + MARKET_OPEN_MIN * 60 : Nat)
  let closeS : Int := (MARKET_CLOSE_HR * 3600 + MARKET_CLOSE_MIN * 60 + t.sec : Nat)
  if 0 < t.wday ∧ t.wday < 7 then
    some (decide (nowS - openS > 0) && decide (nowS - closeS < 0))
  else
    none

/-- The while loop of chopDecimalPlaces, transcribed with an explicit index
i and a fuel argument.  Each iteration of the source loop increases i by at
least one, so with fuel at least numStr length minus i the fuel never runs
out and the zero fuel branch is unreachable. -/
def chopLoopF (s : List Char) (i : Nat) (fuel : Nat) : List Char :=
  match fuel with
  | 0 => s
  | fuel + 1 =>
    if h : i < s.length then
      if s.get ⟨i, h⟩ = '.' then
        if i + 3 < s.length then s.take (i + 3)
        else chopLoopF s (i + 4) fuel
      else chopLoopF s (i + 1) fuel
    else s

/-- The chopDecimalPlaces function of the source: writing a NUL terminator
at index i of a C string is truncation to the first i characters. -/
def chopDecimalPlaces (s : List Char) : List Char := chopLoopF s 0 s.length

/-- Drop an optional leading minus sign. -/
def stripSign (s : List Char) : List Char :=
  match s with
  | '-' :: t => t
  | t => t

/-- Numeric string shape as used by the spec examples: an optional leading
minus sign followed by digits and at most one decimal point. -/
def isNumericStr (s : List Char) : Bool :=
  (stripSign s).all (fun c => c.isDigit || c == '.') && decide (s.count '.' ≤ 1)

/-- The number of characters after the first decimal point of a string. -/
def decCount (s : List Char) : Nat :=
  ((s.dropWhile fun c => !(c == '.')).drop 1).length

/-- Sign normalization plus truncation as performed on the change buffer in
getQuote: dir is computed from the first character of the raw change buffer
(reading NUL on an empty buffer) before chopDecimalPlaces is applied, then
the displayed change is dir followed by the chopped value. -/
def signNormalize (change : List Char) : List Char :=
  let dir := if change.getD 0 nulChar ≠ '-' then ['+'] else []
  dir ++ chopDecimalPlaces change

/-- Whitespace test used to model Arduino String.trim. -/
def isWSChar (c : Char) : Bool :=
  c = ' ' || c = '\t' || c = '\n' || c = '\r'

/-- Arduino String.trim: remove leading and trailing whitespace. -/
def trimChars (s : List Char) : List Char :=
  ((s.dropWhile isWSChar).reverse.dropWhile isWSChar).reverse

/-- Bool test that p is an initial run of s, modelling Arduino
String.startsWith. -/
def startsWithStr : List Char → List Char → Bool
  | [], _ => true
  | _ :: _, [] => false
  | a :: p, b :: s => a = b && startsWithStr p s

/-- The body accumulation loop of getQuote: read lines one at a time, trim
each, stop at the first line that starts with the closing div tag, and
append a space plus the line to the working buffer.  The list argument
holds the lines the stream delivers after the marker line; reaching its end
models the client disconnecting. -/
def collectBody : List (List Char) → List Char
  | [] => []
  | l :: rest =>
    let t := trimChars l
    if startsWithStr (str "</div>") t then []
    else (' ' :: t) ++ collectBody rest

/-- One HTTP response as consumed by getQuote.  ok200 is the result of the
findUntil scan for the success status line; markerFound is the result of
the find of the structured data marker; bodyLines are the lines the stream
delivers after the marker line; priceMatch and changeMatch are the results
of the two Regexp library matches on the working buffer (none when the key
pattern did not match, otherwise the matched numeric substring). -/
structure HttpResponse where
  ok200 : Bool
  markerFound : Bool
  bodyLines : List (List Char)
  priceMatch : Option (List Char)
  changeMatch : Option (List Char)

/-- Outcome of one fetch attempt: the connect call fails, or a response is
delivered. -/
inductive FetchOutcome where
  | connectError : FetchOutcome
  | response : HttpResponse → FetchOutcome

/-- The working buffer quoteData built by getQuote: empty when the marker
was not found, otherwise the accumulated body lines. -/
def quoteDataOf (r : HttpResponse) : List Char :=
  if r.markerFound then collectBody r.bodyLines else []

/-- The getQuote function of the source, as a function from the fetch
outcome to the update performed on stocksQuotes at the given symbol index:
none when the function returns without touching the record, some s when the
record is overwritten with s. -/
def getQuote (symbol : List Char) (o : FetchOutcome) : Option (List Char) :=
  match o with
  | .connectError => none
  | .response r =>
    if !r.ok200 then some (str "Invalid Symbol")
    else
      let quoteData := quoteDataOf r
      if quoteData = [] then none
      else
        let price := r.priceMatch.getD []
        let change := r.changeMatch.getD []
        some (symbol ++ [' '] ++ chopDecimalPlaces price ++ [' '] ++ signNormalize change)

/-- State of the TaskGetQuotes loop. -/
structure FetchState where
  stocksIndex : Nat
  haveQuoteData : Bool
  stocksQuotes : List (List Char)

/-- One iteration of the TaskGetQuotes loop body, given the current
marketOpen answer and the outcome of the fetch attempt.  When the guard
passes, getQuote runs for stocks at stocksIndex, then stocksIndex is
incremented unconditionally and wraps to 0 at stocksLen, at which point
haveQuoteData is set. -/
def TaskGetQuotesStep (mo : Bool) (o : FetchOutcome) (s : FetchState) : FetchState :=
  if mo || !s.haveQuoteData then
    let quotes :=
      match getQuote (stocks.getD s.stocksIndex []) o with
      | none => s.stocksQuotes
      | some rec0 => s.stocksQuotes.set s.stocksIndex rec0
    let i := s.stocksIndex + 1
    if i = stocksLen then ⟨0, true, quotes⟩
    else ⟨i, s.haveQuoteData, quotes⟩
  else s

/-- State of the TaskDisplay loop: the rolling buffer displayText, the
segment nextUp being fed in, the cursor nPos within it, the current stocks
index, and the banner counter quoteCnt. -/
structure TickerState where
  displayText : List Char
  nextUp : List Char
  nPos : Nat
  index : Nat
  quoteCnt : Nat

/-- One iteration of the TaskDisplay loop body.  quotes is the current
stocksQuotes array and banner the date and time string strftime would
produce this tick.  The leading character of displayText is removed and the
character of nextUp at nPos appended; when the advanced cursor reaches the
end of nextUp the segment rotates: the index advances modulo stocksLen, the
banner counter advances modulo DISP_DATE_CNT, and the next segment is the
banner, the updating message for an empty record, or the record plus
spacer. -/
def TaskDisplayTick (quotes : List (List Char)) (banner : List Char)
    (s : TickerState) : TickerState :=
  let displayText := s.displayText.drop 1 ++ [s.nextUp.getD s.nPos nulChar]
  let nPos := s.nPos + 1
  if nPos = s.nextUp.length then
    let index := (s.index + 1) % stocksLen
    let quoteCnt := (s.quoteCnt + 1) % DISP_DATE_CNT
    let nextUp :=
      if quoteCnt = 0 then banner
      else if (quotes.getD index []).length = 0 then updatingMsg
      else quotes.getD index [] ++ spacer
    ⟨displayText, nextUp, 0, index, quoteCnt⟩
  else
    ⟨displayText, s.nextUp, nPos, s.index, s.quoteCnt⟩

/-- The task control calls TaskControl can issue. -/
inductive CtrlCall where
  | resumeDisp : CtrlCall
  | resumeQuotes : CtrlCall
  | suspendDisp : CtrlCall
  | suspendQuotes : CtrlCall

/-- The active hours test of TaskControl. -/
def activeHour (h : Nat) : Bool :=
  decide (ACTIVE_ON_HR ≤ h) && decide (h < ACTIVE_OFF_HR)

/-- One iteration of the TaskControl loop body: given the current hour and
the displayOn flag, the new flag and the task control calls issued this
tick. -/
def controlStep (h : Nat) (displayOn : Bool) : Bool × List CtrlCall :=
  if activeHour h then
    if !displayOn then (true, [.resumeDisp, .resumeQuotes]) else (displayOn, [])
  else
    if displayOn then (false, [.suspendDisp, .suspendQuotes]) else (displayOn, [])

/-- A run of TaskControl iterations over a list of observed hours, threading
the displayOn flag and concatenating the calls issued. -/
def controlRun (hs : List Nat) (displayOn : Bool) : Bool × List CtrlCall :=
  match hs with
  | [] => (displayOn, [])
  | h :: t =>
    let st := controlStep h displayOn
    let rest := controlRun t st.1
    (rest.1, st.2 ++ rest.2)

/-! ## Helper lemmas about the chopDecimalPlaces loop -/

theorem chopLoopF_ge (s : List Char) (i fuel : Nat) (h : s.length ≤ i) :
    chopLoopF s i fuel = s := by
  cases fuel with
  | zero => rfl
  | succ n => simp [chopLoopF, Nat.not_lt.mpr h]

theorem chopLoopF_nodot (s : List Char) (fuel : Nat) :
    ∀ i, (∀ j (hj : j < s.length), i ≤ j → s.get ⟨j, hj⟩ ≠ '.') →
      chopLoopF s i fuel = s := by
  induction fuel with
  | zero => intro i _; rfl
  | succ n ih =>
    intro i h
    by_cases h1 : i < s.length
    · have hd : ¬ s.get ⟨i, h1⟩ = '.' := h i h1 le_rfl
      simp only [chopLoopF, dif_pos h1, if_neg hd]
      exact ih (i + 1) (fun j hj hij => h j hj (le_trans (Nat.le_succ i) hij))
    · simp [chopLoopF, h1]

theorem chopLoopF_dot (s : List Char) (p : Nat) (hp : p < s.length)
    (hd : s.get ⟨p, hp⟩ = '.') :
    ∀ fuel i, i ≤ p → s.length - i ≤ fuel →
      (∀ j (hj : j < s.length), i ≤ j → j < p → s.get ⟨j, hj⟩ ≠ '.') →
      chopLoopF s i fuel = if p + 3 < s.length then s.take (p + 3) else s := by
  intro fuel
  induction fuel with
  | zero =>
    intro i hip hfuel _
    exact absurd (lt_of_le_of_lt hip hp) (by omega)
  | succ n ih =>
    intro i hip hfuel hno
    have h1 : i < s.length := lt_of_le_of_lt hip hp
    rcases Nat.lt_or_ge i p with hlt | hge
    · have hd2 : ¬ s.get ⟨i, h1⟩ = '.' := hno i h1 le_rfl hlt
      simp only [chopLoopF, dif_pos h1, if_neg hd2]
      exact ih (i + 1) hlt (by omega) (fun j hj hij hjp => hno j hj (by omega) hjp)
    · have heq : i = p := le_antisymm hip hge
      subst heq
      simp only [chopLoopF, dif_pos h1, if_pos hd]
      by_cases h3 : i + 3 < s.length
      · simp [h3]
      · simp only [if_neg h3]
        exact chopLoopF_ge s (i + 4) n (by omega)

theorem get_append_left (a t : List Char) (j : Nat) (h : j < a.length)
    (h2 : j < (a ++ t).length) : (a ++ t).get ⟨j, h2⟩ = a.get ⟨j, h⟩ := by
  induction a generalizing j with
  | nil => exact absurd h (by simp)
  | cons x a ih =>
    cases j with
    | zero => rfl
    | succ j => exact ih j (by simpa using h) (by simpa using h2)

theorem get_append_mid (a b : List Char) (c : Char)
    (h : a.length < (a ++ c :: b).length) : (a ++ c :: b).get ⟨a.length, h⟩ = c := by
  induction a with
  | nil => rfl
  | cons x a ih => exact ih (by simp)

theorem take_all_of_len_le (l : List Char) (n : Nat) (h : l.length ≤ n) :
    l.take n = l := by
  induction l generalizing n with
  | nil => simp
  | cons x l ih =>
    cases n with
    | zero => exact absurd h (by simp)
    | succ n =>
      rw [List.take_succ_cons]
      exact congrArg (x :: ·) (ih n (by simpa using h))

theorem take_append_len (a t : List Char) (k : Nat) :
    (a ++ t).take (a.length + k) = a ++ t.take k := by
  induction a with
  | nil => simp
  | cons x a ih =>
    have hh : (x :: a).length + k = (a.length + k) + 1 := by
      simp [List.length_cons]; omega
    rw [hh, List.cons_append, List.take_succ_cons, ih, List.cons_append]

theorem dot_split (s : List Char) :
    (∀ c ∈ s, c ≠ '.') ∨ ∃ a b, s = a ++ '.' :: b ∧ ∀ c ∈ a, c ≠ '.' := by
  induction s with
  | nil =>
    left
    intro c hc
    cases hc
  | cons x xs ih =>
    by_cases hx : x = '.'
    · right
      exact ⟨[], xs, by rw [hx]; rfl, by intro c hc; cases hc⟩
    · rcases ih with h | ⟨a, b, hab, ha⟩
      · left
        intro c hc
        rcases List.mem_cons.mp hc with rfl | hc
        · exact hx
        · exact h c hc
      · right
        refine ⟨x :: a, b, by rw [hab]; rfl, ?_⟩
        intro c hc
        rcases List.mem_cons.mp hc with rfl | hc
        · exact hx
        · exact ha c hc

theorem chop_nodot (s : List Char) (h : ∀ c ∈ s, c ≠ '.') :
    chopDecimalPlaces s = s :=
  chopLoopF_nodot s s.length 0 (fun j hj _ => h _ (List.get_mem s j hj))

theorem chop_split (a b : List Char) (ha : ∀ c ∈ a, c ≠ '.') :
    chopDecimalPlaces (a ++ '.' :: b) = a ++ '.' :: b.take 2 := by
  have hp : a.length < (a ++ '.' :: b).length := by simp
  have hd : (a ++ '.' :: b).get ⟨a.length, hp⟩ = '.' := get_append_mid a b '.' hp
  have hmain := chopLoopF_dot (a ++ '.' :: b) a.length hp hd
      ((a ++ '.' :: b).length) 0 (Nat.zero_le _) (by omega) ?_
  · rw [chopDecimalPlaces, hmain]
    by_cases h3 : a.length + 3 < (a ++ '.' :: b).length
    · rw [if_pos h3]
      have h33 : ('.' :: b).take 3 = '.' :: b.take 2 := rfl
      rw [take_append_len a ('.' :: b) 3, h33]
    · rw [if_neg h3]
      have hb2 : b.length ≤ 2 := by
        simp [List.length_append] at h3
        omega
      rw [take_all_of_len_le b 2 hb2]
  · intro j hj _ hjp
    rw [get_append_left a ('.' :: b) j hjp hj]
    exact ha _ (List.get_mem a j hjp)

theorem dropWhile_nodot (s : List Char) (h : ∀ c ∈ s, c ≠ '.') :
    s.dropWhile (fun c => !(c == '.')) = [] := by
  induction s with
  | nil => rfl
  | cons x xs ih =>
    have hx : x ≠ '.' := h x (List.mem_cons_self x xs)
    rw [List.dropWhile_cons, if_pos (by simp [hx])]
    exact ih (fun c hc => h c (List.mem_cons_of_mem x hc))

theorem dropWhile_dotfree (a l : List Char) (ha : ∀ c ∈ a, c ≠ '.') :
    (a ++ '.' :: l).dropWhile (fun c => !(c == '.')) = '.' :: l := by
  induction a with
  | nil =>
    rw [List.nil_append, List.dropWhile_cons, if_neg (by simp)]
  | cons x a ih =>
    have hx : x ≠ '.' := ha x (List.mem_cons_self x a)
    rw [List.cons_append, List.dropWhile_cons, if_pos (by simp [hx])]
    exact ih (fun c hc => ha c (List.mem_cons_of_mem x hc))

/-! ## Helper lemmas about the renderer and the control loop -/

theorem tick_displayText (quotes : List (List Char)) (banner : List Char)
    (t : TickerState) :
    (TaskDisplayTick quotes banner t).displayText
      = t.displayText.drop 1 ++ [t.nextUp.getD t.nPos nulChar] := by
  by_cases h : t.nPos + 1 = t.nextUp.length <;> simp [TaskDisplayTick, h]

theorem tick_mid (quotes : List (List Char)) (banner : List Char)
    (t : TickerState) (h : t.nPos + 1 ≠ t.nextUp.length) :
    TaskDisplayTick quotes banner t
      = ⟨t.displayText.drop 1 ++ [t.nextUp.getD t.nPos nulChar],
         t.nextUp, t.nPos + 1, t.index, t.quoteCnt⟩ := by
  simp [TaskDisplayTick, h]

theorem tick_rot (quotes : List (List Char)) (banner : List Char)
    (t : TickerState) (h : t.nPos + 1 = t.nextUp.length) :
    TaskDisplayTick quotes banner t
      = ⟨t.displayText.drop 1 ++ [t.nextUp.getD t.nPos nulChar],
         (if (t.quoteCnt + 1) % DISP_DATE_CNT = 0 then banner
          else if (quotes.getD ((t.index + 1) % stocksLen) []).length = 0 then updatingMsg
          else quotes.getD ((t.index + 1) % stocksLen) [] ++ spacer),
         0, (t.index + 1) % stocksLen, (t.quoteCnt + 1) % DISP_DATE_CNT⟩ := by
  simp [TaskDisplayTick, h]

theorem tick_len (quotes : List (List Char)) (banner : List Char)
    (t : TickerState) (h : t.displayText ≠ []) :
    (TaskDisplayTick quotes banner t).displayText.length
      = t.displayText.length := by
  rw [tick_displayText]
  have hpos : 0 < t.displayText.length := List.length_pos.mpr h
  simp only [List.length_append, List.length_drop, List.length_cons,
    List.length_nil]
  omega

theorem iterate_mid (quotes : List (List Char)) (banner : List Char)
    (s : TickerState) (h0 : s.nPos = 0) (hd : s.displayText ≠ []) :
    ∀ k, k < s.nextUp.length →
      ((TaskDisplayTick quotes banner)^[k] s).nextUp = s.nextUp
      ∧ ((TaskDisplayTick quotes banner)^[k] s).nPos = k
      ∧ ((TaskDisplayTick quotes banner)^[k] s).index = s.index
      ∧ ((TaskDisplayTick quotes banner)^[k] s).quoteCnt = s.quoteCnt
      ∧ ((TaskDisplayTick quotes banner)^[k] s).displayText.length
          = s.displayText.length := by
  intro k
  induction k with
  | zero =>
    intro _
    simp [h0]
  | succ k ih =>
    intro hk
    have hk2 : k < s.nextUp.length := Nat.lt_of_succ_lt hk
    obtain ⟨hU, hP, hI, hQ, hL⟩ := ih hk2
    rw [Function.iterate_succ_apply']
    have hne : ((TaskDisplayTick quotes banner)^[k] s).nPos + 1
        ≠ ((TaskDisplayTick quotes banner)^[k] s).nextUp.length := by
      rw [hP, hU]
      omega
    rw [tick_mid quotes banner _ hne]
    have hpos : 0 < s.displayText.length := List.length_pos.mpr hd
    refine ⟨hU, by rw [hP], hI, hQ, ?_⟩
    simp only [List.length_append, List.length_drop, List.length_cons,
      List.length_nil, hL]
    omega

theorem controlStep_state (h : Nat) (b : Bool) :
    (controlStep h b).1 = activeHour h := by
  cases hA : activeHour h <;> cases b <;> simp [controlStep, hA]

theorem controlStep_steady (h : Nat) (b : Bool) (hb : activeHour h = b) :
    controlStep h b = (b, []) := by
  cases b <;> simp [controlStep, hb]

theorem controlRun_steady (hs : List Nat) (b : Bool)
    (hall : ∀ h ∈ hs, activeHour h = b) : controlRun hs b = (b, []) := by
  induction hs with
  | nil => rfl
  | cons h t ih =>
    have h1 := controlStep_steady h b (hall h (List.mem_cons_self h t))
    simp only [controlRun, h1]
    rw [ih (fun x hx => hall x (List.mem_cons_of_mem h hx))]
    simp

/-! ## Claim theorems -/

/-- Claim C1.  The claim states that marketOpen is true iff the weekday is
Monday through Friday and the time of day lies in the half open interval
from the open time to the close time, with the open boundary included and
every Saturday or Sunday time false.  The source diverges: the weekday
guard tm_wday greater than 0 and less than 7 accepts Saturday (tm_wday 6),
contradicting the source comment Mon equals 1 and Fri equals 5, and the
open comparison is strict, so the exact open instant reports closed.  This
theorem records the divergence: Saturday noon reports open, Monday exactly
at the open time reports closed, and Monday exactly at the close time
reports closed. -/
theorem marketOpen_saturday_and_boundary :
    marketOpen ⟨6, 12, 0, 0⟩ = some true
    ∧ marketOpen ⟨1, MARKET_OPEN_HR, MARKET_OPEN_MIN, 0⟩ = some false
    ∧ marketOpen ⟨1, MARKET_CLOSE_HR, MARKET_CLOSE_MIN, 0⟩ = some false := by
  refine ⟨?_, ?_, ?_⟩ <;> decide

/-- Claim C9.  The claim states that marketOpen assigns its boolean result
on every control path, in particular for Sunday times where tm_wday is 0.
The source declares marketIsOpen without an initializer and assigns it only
inside the weekday guard, so for every Sunday time the guard is false and
the function returns an uninitialized bool, modelled here as none.  The
second conjunct characterizes exactly which times reach the return without
an assignment. -/
theorem marketOpen_sunday_unassigned :
    marketOpen ⟨0, 12, 0, 0⟩ = none
    ∧ ∀ t : Tm, marketOpen t = none ↔ ¬(0 < t.wday ∧ t.wday < 7) := by
  constructor
  · decide
  · intro t
    by_cases h : 0 < t.wday ∧ t.wday < 7 <;> simp [marketOpen, h]

/-- Claim C2 counterexample.  The claim states that when the connection to
the server cannot be established the fetch loop does not advance its symbol
index.  In the source TaskGetQuotes increments stocksIndex unconditionally
after getQuote returns, so a connect failure at index 0 still moves the
loop to index 1. -/
theorem fetchStep_connectError_advances :
    (TaskGetQuotesStep true .connectError ⟨0, false, [[], [], [], []]⟩).stocksIndex = 1
    ∧ (TaskGetQuotesStep true .connectError ⟨0, false, [[], [], [], []]⟩).stocksIndex ≠ 0 := by
  decide

/-- Claim C2 amended.  On a fetch iteration whose guard passes and whose
connect call fails, the stored records are left unchanged but the symbol
index still advances by one, wrapping to 0 at stocksLen; the failed symbol
is therefore retried only on the next full cycle, not on the next tick. -/
theorem fetchStep_connectError_spec (mo : Bool) (s : FetchState)
    (hg : (mo || !s.haveQuoteData) = true) :
    (TaskGetQuotesStep mo .connectError s).stocksQuotes = s.stocksQuotes
    ∧ (TaskGetQuotesStep mo .connectError s).stocksIndex
        = (if s.stocksIndex + 1 = stocksLen then 0 else s.stocksIndex + 1) := by
  unfold TaskGetQuotesStep
  rw [if_pos hg]
  by_cases h : s.stocksIndex + 1 = stocksLen <;> simp [getQuote, h]

/-- Witness for the amended claim C2 theorem at a concrete state. -/
theorem fetchStep_connectError_spec_witness :
    ((true : Bool) || !(⟨2, false, [[], [], [], []]⟩ : FetchState).haveQuoteData) = true
    ∧ (TaskGetQuotesStep true .connectError ⟨2, false, [[], [], [], []]⟩).stocksQuotes
        = (⟨2, false, [[], [], [], []]⟩ : FetchState).stocksQuotes
    ∧ (TaskGetQuotesStep true .connectError ⟨2, false, [[], [], [], []]⟩).stocksIndex
        = (if (⟨2, false, [[], [], [], []]⟩ : FetchState).stocksIndex + 1 = stocksLen then 0
           else (⟨2, false, [[], [], [], []]⟩ : FetchState).stocksIndex + 1) :=
  ⟨by decide,
   (fetchStep_connectError_spec true ⟨2, false, [[], [], [], []]⟩ (by decide)).1,
   (fetchStep_connectError_spec true ⟨2, false, [[], [], [], []]⟩ (by decide)).2⟩

/-- Claim C3.  For every numeric string the chopped result has at most two
characters after the first decimal point; a numeric string with at most two
characters after the point is returned unchanged; a string without a point
is returned unchanged; and the result is always an initial segment of the
input, so digits are discarded, never rounded. -/
theorem chopDecimalPlaces_numeric (s : List Char) (h : isNumericStr s = true) :
    decCount (chopDecimalPlaces s) ≤ 2
    ∧ (decCount s ≤ 2 → chopDecimalPlaces s = s)
    ∧ (s.count '.' = 0 → chopDecimalPlaces s = s)
    ∧ ∃ n, chopDecimalPlaces s = s.take n := by
  rcases dot_split s with hn | ⟨a, b, hab, ha⟩
  · rw [chop_nodot s hn]
    refine ⟨?_, fun _ => rfl, fun _ => rfl, s.length, (take_all_of_len_le s s.length le_rfl).symm⟩
    rw [decCount, dropWhile_nodot s hn]
    simp
  · subst hab
    rw [chop_split a b ha]
    have hd1 : decCount (a ++ '.' :: b) = b.length := by
      rw [decCount, dropWhile_dotfree a b ha]
      simp
    have hd2 : decCount (a ++ '.' :: b.take 2) = (b.take 2).length := by
      rw [decCount, dropWhile_dotfree a (b.take 2) ha]
      simp
    refine ⟨?_, ?_, ?_, ?_⟩
    · rw [hd2, List.length_take]
      omega
    · intro hle
      rw [hd1] at hle
      rw [take_all_of_len_le b 2 hle]
    · intro hc
      exfalso
      simp [List.count_append, List.count_cons] at hc
    · refine ⟨a.length + 3, ?_⟩
      rw [take_append_len a ('.' :: b) 3]
      rfl

/-- Witness for the claim C3 theorem at the spec example input. -/
theorem chopDecimalPlaces_numeric_witness :
    isNumericStr (str "123.456") = true
    ∧ (decCount (chopDecimalPlaces (str "123.456")) ≤ 2
       ∧ (decCount (str "123.456") ≤ 2 → chopDecimalPlaces (str "123.456") = str "123.456")
       ∧ ((str "123.456").count '.' = 0 → chopDecimalPlaces (str "123.456") = str "123.456")
       ∧ ∃ n, chopDecimalPlaces (str "123.456") = (str "123.456").take n) :=
  ⟨by decide, chopDecimalPlaces_numeric (str "123.456") (by decide)⟩

/-- Claim C10.  For every input string chopDecimalPlaces returns an initial
segment of its input, and applying it twice gives the same result as
applying it once. -/
theorem chopDecimalPlaces_take_idem (s : List Char) :
    (∃ n, chopDecimalPlaces s = s.take n)
    ∧ chopDecimalPlaces (chopDecimalPlaces s) = chopDecimalPlaces s := by
  rcases dot_split s with hn | ⟨a, b, hab, ha⟩
  · rw [chop_nodot s hn]
    exact ⟨⟨s.length, (take_all_of_len_le s s.length le_rfl).symm⟩, chop_nodot s hn⟩
  · subst hab
    rw [chop_split a b ha]
    constructor
    · refine ⟨a.length + 3, ?_⟩
      rw [take_append_len a ('.' :: b) 3]
      rfl
    · rw [chop_split a (b.take 2) ha]
      have h2 : (b.take 2).length ≤ 2 := by
        rw [List.length_take]
        omega
      rw [take_all_of_len_le (b.take 2) 2 h2]

/-- Claim C7.  Sign normalization: a change value that does not start with
a minus sign (including the empty buffer, whose first character reads as
NUL) is displayed with a plus sign prefixed, and a change value that starts
with a minus sign is displayed unchanged.  The hypothesis restricts to
change values that truncation leaves intact, which covers every value with
at most two decimal places, as in the spec examples. -/
theorem signNormalize_sign_rule (c : List Char) (hc : chopDecimalPlaces c = c) :
    (c.getD 0 nulChar ≠ '-' → signNormalize c = '+' :: c)
    ∧ (c.getD 0 nulChar = '-' → signNormalize c = c) := by
  constructor <;> intro h
  · show (if c.getD 0 nulChar ≠ '-' then ['+'] else []) ++ chopDecimalPlaces c = '+' :: c
    rw [if_pos h, hc]
    rfl
  · show (if c.getD 0 nulChar ≠ '-' then ['+'] else []) ++ chopDecimalPlaces c = c
    rw [if_neg (not_not_intro h), hc]
    rfl

/-- Witness for the claim C7 theorem at the spec example inputs. -/
theorem signNormalize_sign_rule_witness :
    chopDecimalPlaces (str "1.23") = str "1.23"
    ∧ signNormalize (str "1.23") = '+' :: str "1.23"
    ∧ signNormalize (str "-1.23") = str "-1.23" :=
  ⟨by decide,
   (signNormalize_sign_rule (str "1.23") (by decide)).1 (by decide),
   (signNormalize_sign_rule (str "-1.23") (by decide)).2 (by decide)⟩

/-- Claim C4.  A connect failure leaves the stored record untouched, and a
successful status whose working buffer stays empty (marker absent, or
marker found with no body lines accumulated before the closing tag) also
leaves the record untouched; conversely the record is overwritten exactly
when the status is not success (Invalid Symbol) or the working buffer is
nonempty (an extraction runs). -/
theorem getQuote_error_atomic (symbol : List Char) (r : HttpResponse) :
    getQuote symbol .connectError = none
    ∧ (getQuote symbol (.response r) = none ↔ r.ok200 = true ∧ quoteDataOf r = [])
    ∧ (r.markerFound = false → quoteDataOf r = []) := by
  refine ⟨rfl, ?_, ?_⟩
  · by_cases h200 : r.ok200 = true
    · by_cases hq : quoteDataOf r = [] <;> simp [getQuote, h200, hq]
    · simp [getQuote, h200, Bool.not_eq_true] at *
  · intro hm
    rw [quoteDataOf, hm]
    simp

/-- Witness for the claim C4 theorem at a concrete response. -/
theorem getQuote_error_atomic_witness :
    getQuote (str "AAPL") .connectError = none
    ∧ (getQuote (str "AAPL") (.response ⟨true, false, [str "x"], none, none⟩) = none
        ↔ (⟨true, false, [str "x"], none, none⟩ : HttpResponse).ok200 = true
          ∧ quoteDataOf ⟨true, false, [str "x"], none, none⟩ = [])
    ∧ ((⟨true, false, [str "x"], none, none⟩ : HttpResponse).markerFound = false
        → quoteDataOf ⟨true, false, [str "x"], none, none⟩ = []) :=
  getQuote_error_atomic (str "AAPL") ⟨true, false, [str "x"], none, none⟩

/-- Claim C5.  Every renderer tick drops the leading character of the
rolling buffer and appends exactly one character, so the buffer length is
invariant across ticks; starting at the beginning of a segment, the quote
index is unchanged for the first len(nextUp) minus one ticks and after
exactly len(nextUp) ticks advances to the next index modulo stocksLen,
whatever the store contents, so display order follows store index order. -/
theorem taskDisplay_tick_spec (quotes : List (List Char)) (banner : List Char)
    (s : TickerState) (h0 : s.nPos = 0) (hL : 0 < s.nextUp.length)
    (hd : s.displayText ≠ []) :
    (∀ t : TickerState, (TaskDisplayTick quotes banner t).displayText
        = t.displayText.drop 1 ++ [t.nextUp.getD t.nPos nulChar])
    ∧ (∀ k, k ≤ s.nextUp.length →
        ((TaskDisplayTick quotes banner)^[k] s).displayText.length
          = s.displayText.length)
    ∧ (∀ k, k < s.nextUp.length →
        ((TaskDisplayTick quotes banner)^[k] s).index = s.index)
    ∧ ((TaskDisplayTick quotes banner)^[s.nextUp.length] s).index
        = (s.index + 1) % stocksLen := by
  have hlast := iterate_mid quotes banner s h0 hd (s.nextUp.length - 1) (by omega)
  obtain ⟨hU, hP, hI, _, hLen⟩ := hlast
  have hsplit : s.nextUp.length = (s.nextUp.length - 1) + 1 := by omega
  have hdlast : ((TaskDisplayTick quotes banner)^[s.nextUp.length - 1] s).displayText ≠ [] := by
    intro hnil
    rw [hnil] at hLen
    exact hd (List.length_eq_zero.mp hLen.symm)
  refine ⟨tick_displayText quotes banner, ?_, ?_, ?_⟩
  · intro k hk
    rcases Nat.lt_or_ge k s.nextUp.length with hlt | hge
    · exact (iterate_mid quotes banner s h0 hd k hlt).2.2.2.2
    · have hkL : k = s.nextUp.length := le_antisymm hk hge
      subst hkL
      rw [hsplit, Function.iterate_succ_apply', tick_len _ _ _ hdlast, hLen]
  · intro k hk
    exact (iterate_mid quotes banner s h0 hd k hk).2.2.1
  · have hrot : ((TaskDisplayTick quotes banner)^[s.nextUp.length - 1] s).nPos + 1
        = ((TaskDisplayTick quotes banner)^[s.nextUp.length - 1] s).nextUp.length := by
      rw [hP, hU]
      omega
    rw [hsplit, Function.iterate_succ_apply', tick_rot _ _ _ hrot]
    rw [show (⟨_, _, 0, ((((TaskDisplayTick quotes banner)^[s.nextUp.length - 1] s).index + 1) % stocksLen), _⟩ : TickerState).index
        = ((((TaskDisplayTick quotes banner)^[s.nextUp.length - 1] s).index + 1) % stocksLen) from rfl, hI]

/-- Witness for the claim C5 theorem at a concrete renderer state. -/
theorem taskDisplay_tick_spec_witness :
    (⟨str "XY", str "PQ", 0, 0, 0⟩ : TickerState).nPos = 0
    ∧ 0 < (⟨str "XY", str "PQ", 0, 0, 0⟩ : TickerState).nextUp.length
    ∧ (⟨str "XY", str "PQ", 0, 0, 0⟩ : TickerState).displayText ≠ []
    ∧ ((∀ t : TickerState,
          (TaskDisplayTick [str "A", str "B", str "C", str "D"] (str "BAN") t).displayText
            = t.displayText.drop 1 ++ [t.nextUp.getD t.nPos nulChar])
       ∧ (∀ k, k ≤ (⟨str "XY", str "PQ", 0, 0, 0⟩ : TickerState).nextUp.length →
           ((TaskDisplayTick [str "A", str "B", str "C", str "D"] (str "BAN"))^[k]
               (⟨str "XY", str "PQ", 0, 0, 0⟩ : TickerState)).displayText.length
             = (⟨str "XY", str "PQ", 0, 0, 0⟩ : TickerState).displayText.length)
       ∧ (∀ k, k < (⟨str "XY", str "PQ", 0, 0, 0⟩ : TickerState).nextUp.length →
           ((TaskDisplayTick [str "A", str "B", str "C", str "D"] (str "BAN"))^[k]
               (⟨str "XY", str "PQ", 0, 0, 0⟩ : TickerState)).index
             = (⟨str "XY", str "PQ", 0, 0, 0⟩ : TickerState).index)
       ∧ ((TaskDisplayTick [str "A", str "B", str "C", str "D"] (str "BAN"))^[(⟨str "XY", str "PQ", 0, 0, 0⟩ : TickerState).nextUp.length]
             (⟨str "XY", str "PQ", 0, 0, 0⟩ : TickerState)).index
           = ((⟨str "XY", str "PQ", 0, 0, 0⟩ : TickerState).index + 1) % stocksLen) :=
  ⟨rfl, by decide, by decide,
   taskDisplay_tick_spec [str "A", str "B", str "C", str "D"] (str "BAN")
     ⟨str "XY", str "PQ", 0, 0, 0⟩ rfl (by decide) (by decide)⟩

/-- Claim C6 counterexample.  A fetch whose price pattern finds no match
still overwrites the record with a nonempty quote string whose price field
is blank; when the renderer reaches that index it sets the next segment to
that quote string plus the spacer, not to the updating placeholder, so
such a record is not treated as still pending. -/
theorem emptyPrice_rendered_not_placeholder :
    getQuote (str "MSFT") (.response ⟨true, true, [str "x"], none, some (str "1.23")⟩)
      = some (str "MSFT  +1.23")
    ∧ (str "MSFT  +1.23").length ≠ 0
    ∧ (TaskDisplayTick [str "MSFT  +1.23", [], [], []] (str "ban")
        ⟨str "AB", str "Q", 0, 3, 0⟩).nextUp = str "MSFT  +1.23" ++ spacer
    ∧ str "MSFT  +1.23" ++ spacer ≠ updatingMsg := by
  refine ⟨?_, ?_, ?_, ?_⟩ <;> decide

/-- Claim C6 amended.  A fetch whose price pattern finds no match writes
the record as the symbol, a blank price field and the normalized change (so
a missing price is rendered blank, never as 0), and on a non banner
rotation the renderer picks the updating placeholder exactly by the
emptiness test of the stored record string: a symbol never successfully
written keeps the empty record and gets the placeholder, while any
overwritten record, even one with a blank price, is rendered as a quote
string. -/
theorem renderer_placeholder_only_empty_record (symbol change : List Char)
    (r : HttpResponse) (h1 : r.ok200 = true) (h2 : quoteDataOf r ≠ [])
    (h3 : r.priceMatch = none) (h4 : r.changeMatch = some change) :
    getQuote symbol (.response r)
      = some (symbol ++ [' '] ++ [' '] ++ signNormalize change)
    ∧ (∀ quotes banner (t : TickerState),
        t.nPos + 1 = t.nextUp.length → (t.quoteCnt + 1) % DISP_DATE_CNT ≠ 0 →
        (TaskDisplayTick quotes banner t).nextUp
          = (if (quotes.getD ((t.index + 1) % stocksLen) []).length = 0 then updatingMsg
             else quotes.getD ((t.index + 1) % stocksLen) [] ++ spacer)) := by
  constructor
  · simp [getQuote, h1, h2, h3, h4, chopDecimalPlaces, chopLoopF, signNormalize]
  · intro quotes banner t hrot hcnt
    rw [tick_rot quotes banner t hrot]
    simp [hcnt]

/-- Witness for the amended claim C6 theorem at a concrete response and
renderer state. -/
theorem renderer_placeholder_only_empty_record_witness :
    (⟨true, true, [str "x"], none, some (str "9.87")⟩ : HttpResponse).ok200 = true
    ∧ quoteDataOf ⟨true, true, [str "x"], none, some (str "9.87")⟩ ≠ []
    ∧ (⟨true, true, [str "x"], none, some (str "9.87")⟩ : HttpResponse).priceMatch = none
    ∧ (⟨true, true, [str "x"], none, some (str "9.87")⟩ : HttpResponse).changeMatch
        = some (str "9.87")
    ∧ (getQuote (str "FB") (.response ⟨true, true, [str "x"], none, some (str "9.87")⟩)
        = some (str "FB" ++ [' '] ++ [' '] ++ signNormalize (str "9.87"))
       ∧ (∀ quotes banner (t : TickerState),
           t.nPos + 1 = t.nextUp.length → (t.quoteCnt + 1) % DISP_DATE_CNT ≠ 0 →
           (TaskDisplayTick quotes banner t).nextUp
             = (if (quotes.getD ((t.index + 1) % stocksLen) []).length = 0 then updatingMsg
                else quotes.getD ((t.index + 1) % stocksLen) [] ++ spacer))) :=
  ⟨rfl, by decide, rfl, rfl,
   renderer_placeholder_only_empty_record (str "FB") (str "9.87")
     ⟨true, true, [str "x"], none, some (str "9.87")⟩ rfl (by decide) rfl rfl⟩

/-- Claim C8.  Over a run of consecutive control ticks whose hours all lie
in the same active or inactive region, every suspend or resume call of the
run is issued on the first tick (the tail of the run issues none), a single
tick issues at most the one transition batch of two task calls, and if the
displayOn flag already matches the region no call is issued at all. -/
theorem control_calls_once_per_region (h : Nat) (t : List Nat) (b dOn : Bool)
    (hall : ∀ x ∈ h :: t, activeHour x = b) :
    (controlRun (h :: t) dOn).2 = (controlStep h dOn).2
    ∧ (controlRun (h :: t) dOn).2.length ≤ 2
    ∧ (dOn = b → (controlRun (h :: t) dOn).2 = []) := by
  have hb : activeHour h = b := hall h (List.mem_cons_self h t)
  have hrest : controlRun t (controlStep h dOn).1 = (b, []) := by
    rw [controlStep_state h dOn, hb]
    exact controlRun_steady t b (fun x hx => hall x (List.mem_cons_of_mem h hx))
  have hfirst : (controlRun (h :: t) dOn).2 = (controlStep h dOn).2 := by
    simp only [controlRun, hrest]
    simp
  refine ⟨hfirst, ?_, ?_⟩
  · rw [hfirst]
    cases hA : activeHour h <;> cases dOn <;> simp [controlStep, hA]
  · intro hdb
    subst hdb
    rw [hfirst, controlStep_steady h dOn hb]

/-- Witness for the claim C8 theorem on a concrete run of active hours. -/
theorem control_calls_once_per_region_witness :
    (∀ x ∈ [8, 9, 10], activeHour x = true)
    ∧ ((controlRun [8, 9, 10] false).2 = (controlStep 8 false).2
       ∧ (controlRun [8, 9, 10] false).2.length ≤ 2
       ∧ (false = true → (controlRun [8, 9, 10] false).2 = [])) :=
  ⟨by decide, control_calls_once_per_region 8 [9, 10] true false (by decide)⟩
